import Mathlib

/-!
# myshell: the parser, the job table and the read-eval loop

A shallow embedding of `src/myshell.cpp`.

* Strings (`std::string`, `char*`) are lists of characters.
* The shell process is followed alone: a `fork` that succeeds gives the parent
  the pid of the child, and the code that runs in the child is not part of the
  state of the shell.
* What the operating system answers (results of `fork`, `pipe`, `chdir`,
  `kill`, the status a blocking `waitpid` reports, `isatty`) is an explicit
  parameter `OS`; what the shell asks of it is recorded, in order, in a trace
  of events.
* An `int` is an integer of the 32-bit range; arithmetic on it wraps
  (`wrap_int`), as it does in the compiled program: `next_job_id++` at
  `INT_MAX` gives `INT_MIN`.
* Standard input is the list of its lines, each ended by a newline.
* The SIGCHLD handler is a function of its own (`sigchld_handler`), run
  against the children the kernel holds (`Kernel`); the read-eval loop is
  followed without it, and sequences of job-table operations in which the
  handler runs between any two of them are the relation `Run`.
-/

namespace MyShell

/-! ## Strings -/

/-- The characters of a `std::string` or of a C string. -/
abbrev Str := List Char

/-- The single quote character. -/
def SQ : Char := Char.ofNat 39

/-- The double quote character. -/
def DQ : Char := Char.ofNat 34

/-- The character that terminates a C string. -/
def NUL : Char := Char.ofNat 0

/-- C `isspace` in the "C" locale: space, and `\t \n \v \f \r` (9 to 13). -/
def isspace (c : Char) : Bool :=
  c == ' ' || (decide (9 ≤ c.toNat) && decide (c.toNat ≤ 13))

/-- The value of an `int` after an arithmetic operation whose exact result is
`x`: the integer of the range -2^31 .. 2^31 - 1 that is `x` modulo 2^32. -/
def wrap_int (x : Int) : Int :=
  (x + 2147483648) % 4294967296 - 2147483648

/-- The value `strtol` returns for the exact value `x`: `x` kept within the
range of a 64-bit `long`. -/
def clamp_long (x : Int) : Int :=
  if x > 9223372036854775807 then 9223372036854775807
  else if x < -9223372036854775808 then -9223372036854775808
  else x

/-- What `strcpy(dst, tok.c_str())` copies: the characters before the first NUL. -/
def c_str (s : Str) : Str :=
  s.takeWhile (fun c => c != NUL)

/-! ## Data model (lines 18-38) -/

/-- The `struct Command`. An element of `args` is a `char*`: `none` is `NULL`. -/
structure Command where
  args : List (Option Str)
  inputFile : Str
  outputFile : Str
  hasRedirect : Bool
  background : Bool
  raw : Str
deriving DecidableEq, Repr

/-- A default-constructed `Command` (`Command()`, then `raw = ""`). -/
def Command.init : Command :=
  { args := [], inputFile := [], outputFile := [], hasRedirect := false,
    background := false, raw := [] }

/-- The `enum JobStatus`. -/
inductive JobStatus where
  | RUNNING
  | STOPPED
  | DONE
deriving DecidableEq, Repr

/-- The `struct Job`. -/
structure Job where
  id : Int
  pgid : Int
  cmdline : Str
  status : JobStatus
deriving DecidableEq, Repr

/-! ## parse_line_advanced (lines 407-505) -/

/-- The `tokenize` lambda (lines 411-435). One unit of fuel is one turn of the
outer `while (i < n)`; the argument is the part of `s` from index `i` on. -/
def tokenizeFuel : Nat → Str → List Str
  | 0, _ => []
  | fuel + 1, s =>
    match s.dropWhile isspace with
    | [] => []
    | c :: rest =>
      if c == SQ || c == DQ then
        rest.takeWhile (fun x => x != c) ::
          tokenizeFuel fuel ((rest.dropWhile (fun x => x != c)).drop 1)
      else
        (c :: rest).takeWhile (fun x => !isspace x) ::
          tokenizeFuel fuel ((c :: rest).dropWhile (fun x => !isspace x))

/-- The tokens of a line. Every turn of the outer loop that pushes a token
consumes a character, so `s.length` turns are enough (`tokenizeFuel_enough`). -/
def tokenize (s : Str) : List Str :=
  tokenizeFuel s.length s

/-- Lines 479-485: a token of two or more characters that starts and ends with
the same quote character loses that pair. -/
def stripQuotes (tok : Str) : Str :=
  if 2 ≤ tok.length ∧
      ((tok.head? = some SQ ∧ tok.getLast? = some SQ) ∨
       (tok.head? = some DQ ∧ tok.getLast? = some DQ)) then
    (tok.drop 1).take (tok.length - 2)
  else tok

/-- Lines 476-491: the current command takes one more argument. -/
def push_arg (cur : Command) (token : Str) : Command :=
  let tok := stripQuotes token
  { cur with
    raw := (if cur.raw.isEmpty then cur.raw else cur.raw ++ [' ']) ++ tok
    args := cur.args ++ [some (c_str tok)] }

/-- Lines 452-456: the current command as the `|` branch pushes it. -/
def close_stage (cur : Command) : Command :=
  { cur with
    raw := if cur.raw.isEmpty then cur.raw else cur.raw ++ [' ', '|', ' ']
    args := if !cur.args.isEmpty && cur.args.getLast? != some none
            then cur.args ++ [none] else cur.args }

/-- The `for` loop over the tokens (lines 449-492): the commands pushed so far,
the current command, the tokens from index `i` on. `none` is the
`return {}` of a redirect with no token after it. -/
def parse_tokens : List Command → Command → List Str → Option (List Command × Command)
  | cmds, cur, [] => some (cmds, cur)
  | cmds, cur, [t] =>
    if t = ['|'] then some (cmds ++ [close_stage cur], Command.init)
    else if t = ['>'] then none
    else if t = ['<'] then none
    else some (cmds, push_arg cur t)
  | cmds, cur, t :: p :: rest =>
    if t = ['|'] then parse_tokens (cmds ++ [close_stage cur]) Command.init (p :: rest)
    else if t = ['>'] then
      parse_tokens cmds { cur with outputFile := p, hasRedirect := true } rest
    else if t = ['<'] then
      parse_tokens cmds { cur with inputFile := p, hasRedirect := true } rest
    else parse_tokens cmds (push_arg cur t) (p :: rest)

/-- Lines 500-502: `commands.back().background = true`. -/
def mark_background : List Command → List Command
  | [] => []
  | [c] => [{ c with background := true }]
  | c :: d :: rest => c :: mark_background (d :: rest)

/-- The reports the shell writes to stderr with `fprintf`:
"myshell: syntax error near unexpected token" (line 465 and 473),
"myshell: fg: %N: no such job" and its `bg` twin (lines 147 and 173),
"myshell: fg: usage: fg %jobid" and its `bg` twin (lines 203 and 214),
"myshell: expected argument to cd" (line 191). -/
inductive Msg where
  | syntax_error
  | no_such_job (cmd : Str) (id : Int)
  | usage (cmd : Str)
  | cd_expected_argument
deriving DecidableEq, Repr

/-- The function `parse_line_advanced`: the commands it returns and what it wrote to stderr. -/
def parse_line_advanced (line : Str) : List Command × List Msg :=
  let tokens := tokenize line
  if tokens.isEmpty then ([], [])
  else
    let trailing_background : Bool := tokens.getLast? == some ['&']
    let tokens := if trailing_background then tokens.dropLast else tokens
    match parse_tokens [] Command.init tokens with
    | none => ([], [Msg.syntax_error])
    | some (commands, currentCmd) =>
      let commands :=
        if !currentCmd.args.isEmpty then
          commands ++ [{ currentCmd with args := currentCmd.args ++ [none] }]
        else commands
      if !commands.isEmpty && trailing_background then (mark_background commands, [])
      else (commands, [])

/-! ## The operating system as seen from the shell process -/

/-- What `waitpid` reports about a child: `WIFEXITED`, `WIFSIGNALED`,
`WIFSTOPPED` or `WIFCONTINUED` holds of the status word. -/
inductive WaitStatus where
  | exited
  | signaled
  | stopped
  | continued
deriving DecidableEq, Repr

/-- The macro `WIFEXITED`. -/
def WIFEXITED (st : WaitStatus) : Bool := st == WaitStatus.exited

/-- The macro `WIFSIGNALED`. -/
def WIFSIGNALED (st : WaitStatus) : Bool := st == WaitStatus.signaled

/-- The macro `WIFSTOPPED`. -/
def WIFSTOPPED (st : WaitStatus) : Bool := st == WaitStatus.stopped

/-- The macro `WIFCONTINUED`. -/
def WIFCONTINUED (st : WaitStatus) : Bool := st == WaitStatus.continued

/-- What a blocking `waitpid(_, &status, WUNTRACED)` can report: without
`WCONTINUED` a resume is not reported. -/
inductive Untraced where
  | exited
  | signaled
  | stopped
deriving DecidableEq, Repr

/-- The status word of a blocking wait. -/
def Untraced.status : Untraced → WaitStatus
  | Untraced.exited => WaitStatus.exited
  | Untraced.signaled => WaitStatus.signaled
  | Untraced.stopped => WaitStatus.stopped

/-- The answers of the operating system. The shell counts its calls
(`Shell.tick`); the n-th call reads the answer at index n. `fork` gives the
shell (the parent) `some pid` of the new child, or `none` for `-1`. -/
structure OS where
  isatty : Bool
  getpid : Int
  fork : Nat → Option Int
  pipe : Nat → Bool
  chdir : Nat → Bool
  kill : Nat → Bool
  wait : Nat → Untraced

/-- What the shell does that is visible outside it, in the order it does it. -/
inductive Event where
  | prompt
  | stderr (m : Msg)
  | perror (what : Str)
  | print_job (id : Int) (status : JobStatus) (cmdline : Str)
  | print_launched (id : Int) (pid : Int)
  | job_control_signals
  | chdir (path : Str)
  | fork (result : Option Int)
  | pipe (index : Nat) (ok : Bool)
  | close (slot : Nat)
  | setpgid (pid : Int) (pgid : Int)
  | tcsetpgrp (pgid : Int)
  | kill_cont (target : Int)
  | waitpid (target : Int) (status : WaitStatus)
deriving DecidableEq, Repr

/-- The globals of the program (`jobs`, `next_job_id`, `shell_pgid`), the
number of calls answered by the operating system so far, and the trace. -/
structure Shell where
  jobs : List Job
  next_job_id : Int
  shell_pgid : Int
  tick : Nat
  trace : List Event
deriving DecidableEq, Repr

/-- The globals as the program starts: no job, `next_job_id = 1`, and
`shell_pgid` zero-initialised. -/
def Shell.start : Shell :=
  { jobs := [], next_job_id := 1, shell_pgid := 0, tick := 0, trace := [] }

/-- One more event at the end of the trace. -/
def Shell.emit (s : Shell) (e : Event) : Shell :=
  { s with trace := s.trace ++ [e] }

/-- One more answer of the operating system has been read. -/
def Shell.next (s : Shell) : Shell :=
  { s with tick := s.tick + 1 }

/-! ## The job table (lines 121-181) -/

/-- The function `add_job`; `next_job_id++` is an increment of an `int`. -/
def add_job (s : Shell) (pgid : Int) (cmdline : Str) (status : JobStatus) : Shell :=
  { s with
    jobs := s.jobs ++ [{ id := s.next_job_id, pgid := pgid, cmdline := cmdline, status := status }]
    next_job_id := wrap_int (s.next_job_id + 1) }

/-- The loop of `job_index_by_id` from index `i` on. -/
def job_index_from : Nat → List Job → Int → Int
  | _, [], _ => -1
  | i, j :: js, id => if j.id = id then (i : Int) else job_index_from (i + 1) js id

/-- The function `job_index_by_id`. -/
def job_index_by_id (jobs : List Job) (id : Int) : Int :=
  job_index_from 0 jobs id

/-- The assignment `jobs[idx].status = st`. -/
def set_status : List Job → Nat → JobStatus → List Job
  | [], _, _ => []
  | j :: js, 0, st => { j with status := st } :: js
  | j :: js, idx + 1, st => j :: set_status js idx st

/-- The function `print_jobs`. -/
def print_jobs (s : Shell) : Shell :=
  { s with trace := s.trace ++ s.jobs.map (fun j => Event.print_job j.id j.status j.cmdline) }

/-- The statement `if (kill(-pgid, SIGCONT) < 0) perror("kill (SIGCONT)")`. -/
def send_cont (os : OS) (s : Shell) (pgid : Int) : Shell :=
  let ok := os.kill s.tick
  let s := (s.next).emit (Event.kill_cont (-pgid))
  if ok then s else s.emit (Event.perror "kill (SIGCONT)".toList)

/-- A blocking `waitpid(target, &status, WUNTRACED)` that returns a status. -/
def wait_for (os : OS) (s : Shell) (target : Int) : WaitStatus × Shell :=
  let st := (os.wait s.tick).status
  (st, (s.next).emit (Event.waitpid target st))

/-- The function `bring_job_foreground`. The index `job_index_by_id` returns,
when it is not -1, is an index of the table, so `jobs[idx]` is a job. -/
def bring_job_foreground (os : OS) (s : Shell) (id : Int) (cont : Bool) : Shell :=
  let idx := job_index_by_id s.jobs id
  if idx < 0 then s.emit (Event.stderr (Msg.no_such_job "fg".toList id))
  else
    match s.jobs.get? idx.toNat with
    | none => s
    | some job =>
      let s := s.emit (Event.tcsetpgrp job.pgid)
      let s := if cont then send_cont os s job.pgid else s
      let r := wait_for os s (-job.pgid)
      let s := r.2.emit (Event.tcsetpgrp r.2.shell_pgid)
      { s with jobs := set_status s.jobs idx.toNat
                 (if WIFSTOPPED r.1 then JobStatus.STOPPED else JobStatus.DONE) }

/-- The function `continue_job_background`; `jobs[idx]` as in `bring_job_foreground`. -/
def continue_job_background (os : OS) (s : Shell) (id : Int) (cont : Bool) : Shell :=
  let idx := job_index_by_id s.jobs id
  if idx < 0 then s.emit (Event.stderr (Msg.no_such_job "bg".toList id))
  else
    match s.jobs.get? idx.toNat with
    | none => s
    | some job =>
      let s := if cont then send_cont os s job.pgid else s
      { s with jobs := set_status s.jobs idx.toNat JobStatus.RUNNING }

/-! ## Built-in commands (lines 184-224) -/

/-- The decimal digits at the start of the text, most significant first, added
to `acc`. -/
def atoi_digits : Int → Str → Int
  | acc, [] => acc
  | acc, c :: cs =>
    if c.isDigit then atoi_digits (acc * 10 + ((c.toNat - 48 : Nat) : Int)) cs else acc

/-- The exact value of the number at the start of the text: leading white
space, an optional sign, then decimal digits. -/
def leading_number (s : Str) : Int :=
  match s.dropWhile isspace with
  | '-' :: r => - atoi_digits 0 r
  | '+' :: r => atoi_digits 0 r
  | r => atoi_digits 0 r

/-- C `atoi`, which the C library computes as `(int) strtol(s, NULL, 10)`: the
number at the start of the text, kept within the range of a `long`, then
converted to `int`. -/
def atoi (s : Str) : Int :=
  wrap_int (clamp_long (leading_number s))

/-- Lines 206-208 and 216-218: the job id of `fg %N`, `fg N`, `bg %N`, `bg N`. -/
def job_id_arg (a : Str) : Int :=
  match a with
  | '%' :: r => atoi r
  | r => atoi r

/-- The function `handle_builtin`: its return value (0 for `exit`, 1 for
another built-in, -1 for a command that is not built in) and the shell after it. -/
def handle_builtin (os : OS) (s : Shell) (cmd : Command) : Int × Shell :=
  match cmd.args with
  | [] => (1, s)
  | none :: _ => (1, s)
  | some name :: more =>
    if name = "exit".toList then (0, s)
    else if name = "cd".toList then
      match more with
      | some path :: _ =>
        let ok := os.chdir s.tick
        let s := (s.next).emit (Event.chdir path)
        (1, if ok then s else s.emit (Event.perror "myshell".toList))
      | _ => (1, s.emit (Event.stderr Msg.cd_expected_argument))
    else if name = "jobs".toList then (1, print_jobs s)
    else if name = "fg".toList then
      match more with
      | some a :: _ => (1, bring_job_foreground os s (job_id_arg a) true)
      | _ => (1, s.emit (Event.stderr (Msg.usage "fg".toList)))
    else if name = "bg".toList then
      match more with
      | some a :: _ => (1, continue_job_background os s (job_id_arg a) true)
      | _ => (1, s.emit (Event.stderr (Msg.usage "bg".toList)))
    else (-1, s)

/-! ## Launching (lines 227-404) -/

/-- The job text of `launch_command`:
`cmd.raw.empty() ? (cmd.args[0] ? cmd.args[0] : "") : cmd.raw`. -/
def job_text (cmd : Command) : Str :=
  if cmd.raw.isEmpty then
    match cmd.args with
    | some a :: _ => a
    | _ => []
  else cmd.raw

/-- The function `launch_command`, in the parent. The `do ... while` around
`waitpid` runs once: a status of a `WUNTRACED` wait is an exit, a kill or a stop. -/
def launch_command (os : OS) (s : Shell) (cmd : Command) : Shell :=
  let r := os.fork s.tick
  let s := (s.next).emit (Event.fork r)
  match r with
  | none => s.emit (Event.perror "myshell".toList)
  | some pid =>
    let s := s.emit (Event.setpgid pid pid)
    if cmd.background then
      let s := add_job s pid (job_text cmd) JobStatus.RUNNING
      s.emit (Event.print_launched (wrap_int (s.next_job_id - 1)) pid)
    else
      let s := s.emit (Event.tcsetpgrp pid)
      let w := wait_for os s pid
      let s := w.2.emit (Event.tcsetpgrp w.2.shell_pgid)
      if WIFSTOPPED w.1 then add_job s pid (job_text cmd) JobStatus.STOPPED else s

/-- Lines 300-304: the text of the whole pipeline. -/
def combined_raw_from : Str → List Command → Str
  | acc, [] => acc
  | acc, c :: cs =>
    combined_raw_from ((if acc.isEmpty then acc else acc ++ [' ', '|', ' ']) ++ c.raw) cs

/-- Lines 308-313: `pipe(&pipefds[i * 2])` for `i` from the given index, `todo`
pipes still to create. The flag is false when a `pipe` failed and the
function returned. -/
def make_pipes (os : OS) : Nat → Nat → Shell → Bool × Shell
  | 0, _, s => (true, s)
  | todo + 1, i, s =>
    let ok := os.pipe s.tick
    let s := (s.next).emit (Event.pipe i ok)
    if ok then make_pipes os todo (i + 1) s
    else (false, s.emit (Event.perror "pipe error".toList))

/-- The loops that close every descriptor of `pipefds` (lines 374 and 387):
every slot holds a descriptor once all the pipes are made. -/
def close_pipes (nslots : Nat) (s : Shell) : Shell :=
  { s with trace := s.trace ++ (List.range nslots).map Event.close }

/-- Lines 315-384 in the parent: `fork` for stage `i` on, `todo` stages still to
create, `pgid` the group so far. The result is `none` when a `fork` failed and
the function returned, else the process group of the pipeline. -/
def spawn_stages (os : OS) (nslots : Nat) : Nat → Nat → Int → Shell → Option Int × Shell
  | 0, _, pgid, s => (some pgid, s)
  | todo + 1, i, pgid, s =>
    let r := os.fork s.tick
    let s := (s.next).emit (Event.fork r)
    match r with
    | none => (none, close_pipes nslots (s.emit (Event.perror "fork error".toList)))
    | some pid =>
      let pgid := if i = 0 then pid else pgid
      spawn_stages os nslots todo (i + 1) pgid (s.emit (Event.setpgid pid pgid))

/-- The background flag of `commands.back()`. -/
def last_background : List Command → Bool
  | [] => false
  | [c] => c.background
  | _ :: d :: rest => last_background (d :: rest)

/-- Lines 386-403: every stage is created; the parent closes its pipe ends,
then registers the background job or waits for the group. -/
def finish_pipeline (os : OS) (nslots : Nat) (background : Bool) (combined_raw : Str)
    (pgid : Int) (s : Shell) : Shell :=
  let s := close_pipes nslots s
  if background then
    let s := add_job s pgid combined_raw JobStatus.RUNNING
    s.emit (Event.print_launched (wrap_int (s.next_job_id - 1)) pgid)
  else
    let s := if os.isatty then s.emit (Event.tcsetpgrp pgid) else s
    let w := wait_for os s (-pgid)
    let s := if os.isatty then w.2.emit (Event.tcsetpgrp w.2.shell_pgid) else w.2
    if WIFSTOPPED w.1 then add_job s pgid combined_raw JobStatus.STOPPED else s

/-- The function `execute_pipeline`, in the parent. -/
def execute_pipeline (os : OS) (s : Shell) (commands : List Command) : Shell :=
  let num_cmds := commands.length
  if num_cmds = 0 then s
  else
    let nslots := 2 * (num_cmds - 1)
    let combined_raw := combined_raw_from [] commands
    let background := last_background commands
    let p := make_pipes os (num_cmds - 1) 0 s
    if !p.1 then p.2
    else
      let f := spawn_stages os nslots num_cmds 0 0 p.2
      match f.1 with
      | none => f.2
      | some pgid => finish_pipeline os nslots background combined_raw pgid f.2

/-! ## The read-eval loop (lines 507-554) -/

/-- Line 517: `jobs.erase(std::remove_if(..., status == DONE), jobs.end())`. -/
def remove_done : List Job → List Job
  | [] => []
  | j :: js => if j.status = JobStatus.DONE then remove_done js else j :: remove_done js

/-- The function `cleanup_commands`: the argument strings are freed (nothing
of the model holds them any more) and the DONE jobs leave the table. -/
def cleanup_commands (s : Shell) : Shell :=
  { s with jobs := remove_done s.jobs }

/-- Lines 534-545: what the loop does with the commands of a line. -/
def dispatch (os : OS) (s : Shell) (commands : List Command) : Shell :=
  match commands with
  | [] => s
  | [cmd] =>
    let b := handle_builtin os s cmd
    if b.1 ≠ -1 then b.2 else launch_command os s cmd
  | _ => execute_pipeline os s commands

/-- Lines 532-545: the line is parsed and its commands are run. -/
def eval_line (os : OS) (s : Shell) (line : Str) : Shell :=
  let r := parse_line_advanced line
  dispatch os { s with trace := s.trace ++ r.2.map Event.stderr } r.1

/-- Lines 530-547: the body of the loop once a line is read. -/
def shell_step (os : OS) (s : Shell) (line : Str) : Shell :=
  if line.isEmpty then s
  else cleanup_commands (eval_line os s line)

/-- The `while (true)` of `shell_loop` over the lines of standard input, each
one ended by a newline; after the last one `getline` meets the end of input
and the loop breaks. -/
def shell_iterations (os : OS) : Shell → List Str → Shell
  | s, [] => s.emit Event.prompt
  | s, line :: rest => shell_iterations os (shell_step os (s.emit Event.prompt) line) rest

/-- The function `init_shell`. The five `signal` calls and the `sigaction` are
the one event `job_control_signals`; the failure reports of `sigaction` and
`setpgid` and the call of `tcgetattr` leave no event. -/
def init_shell (os : OS) (s : Shell) : Shell :=
  if !os.isatty then s
  else
    let s := s.emit Event.job_control_signals
    let s := { s with shell_pgid := os.getpid }
    let s := s.emit (Event.setpgid s.shell_pgid s.shell_pgid)
    s.emit (Event.tcsetpgrp s.shell_pgid)

/-- The function `shell_loop`. -/
def shell_loop (os : OS) (s : Shell) (stdin : List Str) : Shell :=
  shell_iterations os (init_shell os s) stdin

/-- The function `main`: the exit status and the shell as it ends. -/
def main (os : OS) (stdin : List Str) : Int × Shell :=
  (0, shell_loop os Shell.start stdin)

/-! ## The SIGCHLD handler (lines 95-119) -/

/-- The children of the shell as the kernel holds them when the handler runs.
`procs` lists the children that have not been reaped, each with its process
group; `pending` lists, oldest first, the state changes `waitpid` has not
reported yet. -/
structure Kernel where
  procs : List (Int × Int)
  pending : List (Int × WaitStatus)
deriving DecidableEq, Repr

/-- What `waitpid` does to the process table when it reports `st` for `pid`:
a child that exited or was killed is released by the wait that reports it, so
its pid names no process afterwards; a stopped or resumed child stays. -/
def reap (procs : List (Int × Int)) (pid : Int) (st : WaitStatus) : List (Int × Int) :=
  if WIFEXITED st || WIFSIGNALED st then procs.filter (fun p => p.1 ≠ pid) else procs

/-- The call `getpgid(pid)`: the group of the process, or -1 (`ESRCH`) when
`pid` names no process. -/
def getpgid : List (Int × Int) → Int → Int
  | [], _ => -1
  | p :: rest, pid => if p.1 = pid then p.2 else getpgid rest pid

/-- Lines 107-113: the status the handler gives a job on status word `st`. -/
def reported_status (st : WaitStatus) (old : JobStatus) : JobStatus :=
  if WIFSTOPPED st then JobStatus.STOPPED
  else if WIFCONTINUED st then JobStatus.RUNNING
  else if WIFEXITED st || WIFSIGNALED st then JobStatus.DONE
  else old

/-- Lines 105-116: the `for` over the jobs, left by `break` at the first job
of process group `pgid`. -/
def update_job : List Job → Int → WaitStatus → List Job
  | [], _, _ => []
  | j :: js, pgid, st =>
    if j.pgid = pgid then { j with status := reported_status st j.status } :: js
    else j :: update_job js pgid st

/-- The `while ((pid = waitpid(-1, &status, WNOHANG | WUNTRACED | WCONTINUED)) > 0)`
of the handler: one turn for each pending state change, until `waitpid` has
nothing more to report. -/
def sigchld_loop : List (Int × Int) → List (Int × WaitStatus) → List Job →
    List Job × List (Int × Int)
  | procs, [], jobs => (jobs, procs)
  | procs, n :: rest, jobs =>
    let procs := reap procs n.1 n.2
    let pgid := getpgid procs n.1
    if pgid ≤ 0 then sigchld_loop procs rest jobs
    else sigchld_loop procs rest (update_job jobs pgid n.2)

/-- The function `sigchld_handler`: the job table and the kernel after it. -/
def sigchld_handler (k : Kernel) (jobs : List Job) : List Job × Kernel :=
  let r := sigchld_loop k.procs k.pending jobs
  (r.1, { procs := r.2, pending := [] })

/-! ## Runs -/

/-- The state `t` is reached from `s` by a sequence of operations on the job
table, `n` of them calls of `add_job`. The handler runs against any kernel,
`fg` and `bg` against any answers of the operating system. -/
inductive Run (s : Shell) : Nat → Shell → Prop where
  | refl : Run s 0 s
  | add (t : Shell) (n : Nat) (pgid : Int) (cmdline : Str) (status : JobStatus) :
      Run s n t → Run s (n + 1) (add_job t pgid cmdline status)
  | prune (t : Shell) (n : Nat) : Run s n t → Run s n (cleanup_commands t)
  | sigchld (t : Shell) (n : Nat) (k : Kernel) :
      Run s n t → Run s n { t with jobs := (sigchld_handler k t.jobs).1 }
  | fg (t : Shell) (n : Nat) (os : OS) (id : Int) (cont : Bool) :
      Run s n t → Run s n (bring_job_foreground os t id cont)
  | bg (t : Shell) (n : Nat) (os : OS) (id : Int) (cont : Bool) :
      Run s n t → Run s n (continue_job_background os t id cont)

/-- The shell after `n` calls of `add_job` from the start. -/
def after_adds : Nat → Shell
  | 0 => Shell.start
  | n + 1 => add_job (after_adds n) 100 [] JobStatus.RUNNING

/-- Lines 530-545: a turn of the loop up to, and without, `cleanup_commands`. -/
def turn_body (os : OS) (s : Shell) (line : Str) : Shell :=
  if line.isEmpty then s else eval_line os s line

/-- The states in which a turn of the loop of `shell_loop` reads its line: the
state after `init_shell` and the prompt, the state a turn leaves followed by
the prompt, and any of these after the SIGCHLD handler has run. -/
inductive LoopHead : Shell → Prop where
  | first (os : OS) : LoopHead ((init_shell os Shell.start).emit Event.prompt)
  | turn (os : OS) (s : Shell) (line : Str) :
      LoopHead s → LoopHead ((shell_step os s line).emit Event.prompt)
  | sigchld (s : Shell) (k : Kernel) :
      LoopHead s → LoopHead { s with jobs := (sigchld_handler k s.jobs).1 }

/-- The state in which the loop reads the line after the lines `read`. -/
def head_after (os : OS) : Shell → List Str → Shell
  | s, [] => s.emit Event.prompt
  | s, line :: rest => head_after os (shell_step os (s.emit Event.prompt) line) rest

/-! ## Vocabulary of the statements -/

/-- The argument a token becomes (lines 479-490). -/
def arg_of (t : Str) : Option Str := some (c_str (stripQuotes t))

/-- The tokens that are left once a trailing `&` is taken off (lines 442-447). -/
def without_trailing_ampersand (tokens : List Str) : List Str :=
  if tokens.getLast? = some ['&'] then tokens.dropLast else tokens

/-- A redirect operator with no token after it: scanning from the left, a
token `<` or `>` takes the token after it as its path, and the scan meets a
`<` or `>` that has no token after it. -/
def dangling : List Str → Bool
  | [] => false
  | [t] => decide (t = ['>'] ∨ t = ['<'])
  | t :: p :: rest =>
    if t = ['>'] ∨ t = ['<'] then dangling rest else dangling (p :: rest)

/-- A word written without quotes: not empty, no white space in it, and its
first character is not a quote. -/
def plain_word (w : Str) : Prop :=
  w ≠ [] ∧ (∀ c ∈ w, isspace c = false) ∧ w.head? ≠ some SQ ∧ w.head? ≠ some DQ

/-- The words, each followed by one space. -/
def spaced : List Str → Str
  | [] => []
  | w :: ws => w ++ ' ' :: spaced ws

/-- The property claimed of a line without operators: one command, its
arguments the tokens of the line, no redirect path, not in the background. -/
def one_command_of_tokens (line : Str) : Prop :=
  ∃ cmd : Command, (parse_line_advanced line).1 = [cmd] ∧
    cmd.args = (tokenize line).map some ++ [none] ∧
    cmd.inputFile = [] ∧ cmd.outputFile = [] ∧ cmd.background = false

/-- An operating system on which every call succeeds; the n-th call, when it
is a `fork`, creates the child `100 + n`, and every wait reports an exit. -/
def calm : OS :=
  { isatty := false, getpid := 50, fork := fun n => some (100 + n), pipe := fun _ => true,
    chdir := fun _ => true, kill := fun _ => true, wait := fun _ => Untraced.exited }

/-- Two background jobs, both running. -/
def two_jobs : List Job :=
  [{ id := 1, pgid := 100, cmdline := "sleep 1".toList, status := JobStatus.RUNNING },
   { id := 2, pgid := 200, cmdline := "sleep 2".toList, status := JobStatus.RUNNING }]

/-- Both jobs of `two_jobs` have exited and neither exit has been reported yet. -/
def two_exits : Kernel :=
  { procs := [(100, 100), (200, 200)],
    pending := [(100, WaitStatus.exited), (200, WaitStatus.exited)] }

/-- Both jobs of `two_jobs` stop, then the second one is resumed. -/
def stops_and_resume : Kernel :=
  { procs := [(100, 100), (200, 200)],
    pending := [(100, WaitStatus.stopped), (200, WaitStatus.stopped),
      (200, WaitStatus.continued)] }

/-- A shell whose table holds `two_jobs`. -/
def with_two_jobs : Shell :=
  { Shell.start with
    jobs := two_jobs
    next_job_id := 3 }

/-! ## Theorems -/

/-! ### Lists -/

/-- Induction on a list two elements at a time. -/
theorem list_two_step {α : Type} {P : List α → Prop} (h0 : P [])
    (h1 : ∀ t, P [t])
    (h2 : ∀ t p rest, P rest → P (p :: rest) → P (t :: p :: rest)) : ∀ l, P l := by
  have key : ∀ l, P l ∧ ∀ t, P (t :: l) := by
    intro l
    induction l with
    | nil => exact ⟨h0, h1⟩
    | cons p rest ih => exact ⟨ih.2 p, fun t => h2 t p rest ih.1 (ih.2 p)⟩
  exact fun l => (key l).1

/-- The first element `dropWhile` keeps fails the test, and something was kept. -/
theorem dropWhile_cons_elim (p : Char → Bool) (s : Str) (c : Char) (rest : Str)
    (h : s.dropWhile p = c :: rest) : p c = false ∧ rest.length + 1 ≤ s.length := by
  induction s with
  | nil => simp at h
  | cons a s ih =>
    rw [List.dropWhile_cons] at h
    by_cases ha : p a = true
    · rw [if_pos ha] at h
      have := ih h
      exact ⟨this.1, by simp only [List.length_cons]; omega⟩
    · rw [if_neg ha] at h
      injection h with h1 h2
      subst h1; subst h2
      exact ⟨by simpa using ha, le_refl _⟩

/-- The list `dropWhile` keeps is not longer. -/
theorem length_dropWhile_le (p : Char → Bool) (s : Str) :
    (s.dropWhile p).length ≤ s.length :=
  (List.dropWhile_sublist p).length_le

/-! ### The tokenizer -/

/-- Two amounts of fuel that both cover the length of the text give the same tokens. -/
theorem tokenizeFuel_congr (n : Nat) : ∀ (m : Nat) (s : Str),
    s.length ≤ n → s.length ≤ m → tokenizeFuel n s = tokenizeFuel m s := by
  induction n with
  | zero =>
    intro m s hn _
    have hs : s = [] := List.length_eq_zero.mp (Nat.le_zero.mp hn)
    subst hs
    cases m <;> simp [tokenizeFuel]
  | succ n ih =>
    intro m s hn hm
    cases m with
    | zero =>
      have hs : s = [] := List.length_eq_zero.mp (Nat.le_zero.mp hm)
      subst hs
      simp [tokenizeFuel]
    | succ m =>
      simp only [tokenizeFuel]
      cases hd : s.dropWhile isspace with
      | nil => rfl
      | cons c rest =>
        have hc := dropWhile_cons_elim isspace s c rest hd
        have hsp : isspace c = false := hc.1
        simp only []
        split
        · congr 1
          apply ih
          · have := length_dropWhile_le (fun x => x != c) rest
            simp only [List.length_drop]; omega
          · have := length_dropWhile_le (fun x => x != c) rest
            simp only [List.length_drop]; omega
        · congr 1
          have hdc : (c :: rest).dropWhile (fun x => !isspace x)
              = rest.dropWhile (fun x => !isspace x) := by
            rw [List.dropWhile_cons]; simp [hsp]
          rw [hdc]
          apply ih
          · have := length_dropWhile_le (fun x => !isspace x) rest
            omega
          · have := length_dropWhile_le (fun x => !isspace x) rest
            omega

/-- The fuel of `tokenize` never runs out: more fuel gives the same tokens. -/
theorem tokenizeFuel_enough (n : Nat) (s : Str) (h : s.length ≤ n) :
    tokenizeFuel n s = tokenize s :=
  tokenizeFuel_congr n s.length s h (le_refl _)

/-- One turn of the outer loop of the tokenizer. -/
theorem tokenize_unfold (s : Str) :
    tokenize s =
      match s.dropWhile isspace with
      | [] => []
      | c :: rest =>
        if c == SQ || c == DQ then
          rest.takeWhile (fun x => x != c) ::
            tokenize ((rest.dropWhile (fun x => x != c)).drop 1)
        else
          (c :: rest).takeWhile (fun x => !isspace x) ::
            tokenize ((c :: rest).dropWhile (fun x => !isspace x)) := by
  cases s with
  | nil => rfl
  | cons a s =>
    have h0 : tokenize (a :: s) = tokenizeFuel (s.length + 1) (a :: s) := rfl
    rw [h0]
    simp only [tokenizeFuel]
    cases hd : (a :: s).dropWhile isspace with
    | nil => rfl
    | cons c rest =>
      have hc := dropWhile_cons_elim isspace (a :: s) c rest hd
      simp only [List.length_cons] at hc
      simp only []
      split
      · congr 1
        apply tokenizeFuel_enough
        have := length_dropWhile_le (fun x => x != c) rest
        simp only [List.length_drop]; omega
      · congr 1
        apply tokenizeFuel_enough
        have hdc : (c :: rest).dropWhile (fun x => !isspace x)
            = rest.dropWhile (fun x => !isspace x) := by
          rw [List.dropWhile_cons]; simp [hc.1]
        rw [hdc]
        have := length_dropWhile_le (fun x => !isspace x) rest
        omega

/-- A space before the text changes no token. -/
theorem tokenize_space (x : Str) : tokenize (' ' :: x) = tokenize x := by
  rw [tokenize_unfold (' ' :: x), tokenize_unfold x]
  have : (' ' :: x).dropWhile isspace = x.dropWhile isspace := by
    rw [List.dropWhile_cons]; simp [isspace]
  rw [this]

/-- The inner loop of an unquoted token stops at the space after the word. -/
theorem takeWhile_word (w : Str) (x : Str) (h : ∀ c ∈ w, isspace c = false) :
    (w ++ ' ' :: x).takeWhile (fun c => !isspace c) = w ∧
    (w ++ ' ' :: x).dropWhile (fun c => !isspace c) = ' ' :: x := by
  induction w with
  | nil => simp [isspace]
  | cons a w ih =>
    have ha : isspace a = false := h a (List.mem_cons_self _ _)
    have := ih (fun c hc => h c (List.mem_cons_of_mem _ hc))
    simp [List.takeWhile_cons, List.dropWhile_cons, ha, this]

/-- A plain word followed by a space is the first token. -/
theorem tokenize_plain_word (w x : Str) (h : plain_word w) :
    tokenize (w ++ ' ' :: x) = w :: tokenize x := by
  obtain ⟨hne, hsp, hsq, hdq⟩ := h
  cases w with
  | nil => exact absurd rfl hne
  | cons a w =>
    have ha : isspace a = false := hsp a (List.mem_cons_self _ _)
    have hq : (a == SQ || a == DQ) = false := by
      simp only [List.head?_cons, ne_eq, Option.some.injEq] at hsq hdq
      simp [hsq, hdq]
    rw [tokenize_unfold]
    have hd : (a :: w ++ ' ' :: x).dropWhile isspace = a :: (w ++ ' ' :: x) := by
      rw [List.cons_append, List.dropWhile_cons]; simp [ha]
    rw [hd]
    simp only [hq, Bool.false_eq_true, if_false]
    have htw := takeWhile_word (a :: w) x hsp
    rw [List.cons_append] at htw
    rw [htw.1, htw.2, tokenize_space]

/-- Plain words, each followed by a space, are the first tokens. -/
theorem tokenize_spaced (ws : List Str) (x : Str) (h : ∀ w ∈ ws, plain_word w) :
    tokenize (spaced ws ++ x) = ws ++ tokenize x := by
  induction ws with
  | nil => rfl
  | cons w ws ih =>
    have hw := h w (List.mem_cons_self _ _)
    have := ih (fun v hv => h v (List.mem_cons_of_mem _ hv))
    simp only [spaced, List.append_assoc, List.cons_append]
    rw [tokenize_plain_word w _ hw, this]

/-- An operator character between two quotes is the token of that one character. -/
theorem tokenize_quoted_char (q op : Char) (x : Str) (hq : q = SQ ∨ q = DQ)
    (hop : op = '|' ∨ op = '<' ∨ op = '>') :
    tokenize (q :: op :: q :: x) = [op] :: tokenize x := by
  have hne : (op != q) = true ∧ isspace q = false := by
    rcases hq with hq | hq <;> rcases hop with h | h | h <;> subst hq <;> subst h <;> decide
  have hqq : (q == SQ || q == DQ) = true := by
    rcases hq with hq | hq <;> subst hq <;> decide
  rw [tokenize_unfold]
  have hd : (q :: op :: q :: x).dropWhile isspace = q :: op :: q :: x := by
    rw [List.dropWhile_cons]; simp [hne.2]
  rw [hd]
  simp only [hqq, if_true]
  have h1 : (op :: q :: x).takeWhile (fun c => c != q) = [op] := by
    simp [List.takeWhile_cons, hne.1]
  have h2 : (op :: q :: x).dropWhile (fun c => c != q) = q :: x := by
    simp [List.dropWhile_cons, hne.1]
  rw [h1, h2]
  rfl

/-- An operator character followed by a space is the token of that one character. -/
theorem tokenize_bare_char (op : Char) (x : Str) (hop : op = '|' ∨ op = '<' ∨ op = '>') :
    tokenize (op :: ' ' :: x) = [op] :: tokenize x := by
  have h := tokenize_plain_word [op] x (by
    rcases hop with h | h | h <;> subst h <;>
      exact ⟨by simp, by decide, by decide, by decide⟩)
  simpa using h

/-! ### The parser -/

/-- The parse is a function of the tokens. -/
theorem parse_line_advanced_congr (l1 l2 : Str) (h : tokenize l1 = tokenize l2) :
    parse_line_advanced l1 = parse_line_advanced l2 := by
  unfold parse_line_advanced
  rw [h]

/-- What a run of `push_arg` does to the fields of the command. -/
theorem foldl_push_arg (toks : List Str) (cur : Command) :
    (toks.foldl push_arg cur).args = cur.args ++ toks.map arg_of ∧
    (toks.foldl push_arg cur).inputFile = cur.inputFile ∧
    (toks.foldl push_arg cur).outputFile = cur.outputFile ∧
    (toks.foldl push_arg cur).hasRedirect = cur.hasRedirect ∧
    (toks.foldl push_arg cur).background = cur.background := by
  induction toks generalizing cur with
  | nil => simp
  | cons t ts ih =>
    obtain ⟨h1, h2, h3, h4, h5⟩ := ih (push_arg cur t)
    rw [List.foldl_cons, h1, h2, h3, h4, h5]
    refine ⟨?_, rfl, rfl, rfl, rfl⟩
    simp [push_arg, arg_of]

/-- Without operator tokens the loop only pushes arguments. -/
theorem parse_tokens_plain (toks : List Str) (cmds : List Command) (cur : Command)
    (h : ∀ t ∈ toks, t ≠ ['|'] ∧ t ≠ ['>'] ∧ t ≠ ['<']) :
    parse_tokens cmds cur toks = some (cmds, toks.foldl push_arg cur) := by
  induction toks generalizing cur with
  | nil => rfl
  | cons t ts ih =>
    have ht := h t (List.mem_cons_self _ _)
    have hts : ∀ x ∈ ts, x ≠ ['|'] ∧ x ≠ ['>'] ∧ x ≠ ['<'] :=
      fun x hx => h x (List.mem_cons_of_mem _ hx)
    cases ts with
    | nil => simp [parse_tokens, ht.1, ht.2.1, ht.2.2]
    | cons p rest =>
      simp only [parse_tokens, ht.1, ht.2.1, ht.2.2, if_false]
      rw [ih (push_arg cur t) hts]
      rfl

/-- A redirect operator with no token after it makes the loop return nothing. -/
theorem parse_tokens_dangling : ∀ (toks : List Str) (cmds : List Command) (cur : Command),
    dangling toks = true → parse_tokens cmds cur toks = none := by
  intro toks
  induction toks using list_two_step with
  | h0 => intro cmds cur h; simp [dangling] at h
  | h1 t =>
    intro cmds cur h
    simp only [dangling, decide_eq_true_eq] at h
    rcases h with h | h <;> subst h <;> simp [parse_tokens]
  | h2 t p rest ih1 ih2 =>
    intro cmds cur h
    simp only [dangling] at h
    by_cases hpipe : t = ['|']
    · subst hpipe
      simp only [parse_tokens, if_true]
      exact ih2 _ _ (by simpa using h)
    · by_cases hgt : t = ['>']
      · subst hgt
        simp only [parse_tokens, hpipe, if_false, if_true]
        exact ih1 _ _ (by simpa using h)
      · by_cases hlt : t = ['<']
        · subst hlt
          simp only [parse_tokens, hpipe, hgt, if_false, if_true]
          exact ih1 _ _ (by simpa using h)
        · simp only [parse_tokens, hpipe, hgt, hlt, if_false]
          exact ih2 _ _ (by simpa [hgt, hlt] using h)

/-- A `<` or `>` in last place, after a token that is not `<` or `>`, is a
redirect operator with no token after it. -/
theorem dangling_after_token : ∀ (pre : List Str) (x op : Str),
    (op = ['>'] ∨ op = ['<']) → ¬ (x = ['>'] ∨ x = ['<']) →
    dangling (pre ++ [x, op]) = true := by
  intro pre
  induction pre using list_two_step with
  | h0 =>
    intro x op hop hx
    simp [dangling, hx, hop]
  | h1 t =>
    intro x op hop hx
    by_cases ht : t = ['>'] ∨ t = ['<']
    · simp [dangling, ht, hop]
    · simp [dangling, ht, hx, hop]
  | h2 t p rest ih1 ih2 =>
    intro x op hop hx
    by_cases ht : t = ['>'] ∨ t = ['<']
    · simpa [dangling, ht] using ih1 x op hop hx
    · simpa [dangling, ht] using ih2 x op hop hx

/-- The parse of the line `exit`. -/
theorem parse_exit : parse_line_advanced "exit".toList =
    ([{ Command.init with args := [some "exit".toList, none], raw := "exit".toList }], []) := by
  decide

/-- After plain words, an operator character between two quotes gives the
tokens and the parse of the same character written without quotes. -/
theorem quoted_operator_same_parse (ws : List Str) (q op : Char) (x : Str)
    (hws : ∀ w ∈ ws, plain_word w) (hq : q = SQ ∨ q = DQ)
    (hop : op = '|' ∨ op = '<' ∨ op = '>') :
    tokenize (spaced ws ++ q :: op :: q :: x) = ws ++ [op] :: tokenize x ∧
    parse_line_advanced (spaced ws ++ q :: op :: q :: x) =
      parse_line_advanced (spaced ws ++ op :: ' ' :: x) := by
  have h1 : tokenize (spaced ws ++ q :: op :: q :: x) = ws ++ [op] :: tokenize x := by
    rw [tokenize_spaced ws _ hws, tokenize_quoted_char q op x hq hop]
  refine ⟨h1, parse_line_advanced_congr _ _ ?_⟩
  rw [h1, tokenize_spaced ws _ hws, tokenize_bare_char op x hop]

/-- Without a redirect operator that lacks its path the loop returns its commands. -/
theorem parse_tokens_not_dangling : ∀ (toks : List Str) (cmds : List Command) (cur : Command),
    dangling toks = false → ∃ res, parse_tokens cmds cur toks = some res := by
  intro toks
  induction toks using list_two_step with
  | h0 => intro cmds cur _; exact ⟨_, rfl⟩
  | h1 t =>
    intro cmds cur h
    simp only [dangling, decide_eq_false_iff_not, not_or] at h
    by_cases hp : t = ['|']
    · refine ⟨(cmds ++ [close_stage cur], Command.init), ?_⟩
      simp [parse_tokens, hp]
    · refine ⟨(cmds, push_arg cur t), ?_⟩
      simp [parse_tokens, hp, h.1, h.2]
  | h2 t p rest ih1 ih2 =>
    intro cmds cur h
    simp only [dangling] at h
    by_cases hpipe : t = ['|']
    · subst hpipe
      simp only [parse_tokens, if_true]
      exact ih2 _ _ (by simpa using h)
    · by_cases hgt : t = ['>']
      · subst hgt
        simp only [parse_tokens, hpipe, if_false, if_true]
        exact ih1 _ _ (by simpa using h)
      · by_cases hlt : t = ['<']
        · subst hlt
          simp only [parse_tokens, hpipe, hgt, if_false, if_true]
          exact ih1 _ _ (by simpa using h)
        · simp only [parse_tokens, hpipe, hgt, hlt, if_false]
          exact ih2 _ _ (by simpa [hgt, hlt] using h)

/-- In a run of redirect tokens each one at an odd place takes the next one
as its path: the last one lacks its path when the run is of odd length. -/
theorem dangling_run : ∀ (run : List Str), (∀ t ∈ run, t = ['>'] ∨ t = ['<']) →
    dangling run = decide (run.length % 2 = 1) := by
  intro run
  induction run using list_two_step with
  | h0 => intro _; rfl
  | h1 t =>
    intro h
    have := h t (List.mem_singleton_self _)
    simp [dangling, this]
  | h2 t p rest ih1 _ =>
    intro h
    have ht := h t (List.mem_cons_self _ _)
    have hr : ∀ x ∈ rest, x = ['>'] ∨ x = ['<'] :=
      fun x hx => h x (List.mem_cons_of_mem _ (List.mem_cons_of_mem _ hx))
    simp only [dangling, ht, if_true, ih1 hr, List.length_cons]
    congr 1
    apply propext
    omega

/-- After tokens that do not end in a redirect token, a run of redirect
tokens at the end lacks a path when it is of odd length. -/
theorem dangling_append_run : ∀ (pre run : List Str),
    (∀ t ∈ run, t = ['>'] ∨ t = ['<']) →
    (∀ x, pre.getLast? = some x → ¬ (x = ['>'] ∨ x = ['<'])) →
    dangling (pre ++ run) = decide (run.length % 2 = 1) := by
  intro pre
  induction pre using list_two_step with
  | h0 => intro run hrun _; exact dangling_run run hrun
  | h1 x =>
    intro run hrun hpre
    have hx : ¬ (x = ['>'] ∨ x = ['<']) := hpre x rfl
    cases run with
    | nil => simp [dangling, hx]
    | cons r run' =>
      have := dangling_run (r :: run') hrun
      simpa [dangling, hx] using this
  | h2 t p rest ih1 ih2 =>
    intro run hrun hpre
    have hlast2 : ∀ x, (p :: rest).getLast? = some x → ¬ (x = ['>'] ∨ x = ['<']) := by
      intro x hx
      apply hpre x
      rw [List.getLast?_cons_cons]
      exact hx
    by_cases ht : t = ['>'] ∨ t = ['<']
    · have hlast1 : ∀ x, rest.getLast? = some x → ¬ (x = ['>'] ∨ x = ['<']) := by
        intro x hx
        apply hlast2 x
        cases rest with
        | nil => simp at hx
        | cons a as => rw [List.getLast?_cons_cons]; exact hx
      simpa [dangling, ht] using ih1 run hrun hlast1
    · simpa [dangling, ht] using ih2 run hrun hlast2

/-- A line with a redirect operator that lacks its path is reported and
nothing of it is run. -/
theorem dangling_discards_line (line : Str)
    (h : dangling (without_trailing_ampersand (tokenize line)) = true) :
    parse_line_advanced line = ([], [Msg.syntax_error]) ∧
    ∀ (os : OS) (s : Shell),
      shell_step os s line = cleanup_commands (s.emit (Event.stderr Msg.syntax_error)) := by
  have hne : tokenize line ≠ [] := by
    intro h0
    rw [h0] at h
    simp [without_trailing_ampersand, dangling] at h
  have hline : line ≠ [] := by
    intro h0
    rw [h0] at hne
    exact hne rfl
  have hparse : parse_line_advanced line = ([], [Msg.syntax_error]) := by
    unfold parse_line_advanced
    have he : (tokenize line).isEmpty = false := by
      cases ht : tokenize line with
      | nil => exact absurd ht hne
      | cons _ _ => rfl
    simp only [he, Bool.false_eq_true, if_false]
    have ht : (if ((tokenize line).getLast? == some ['&']) = true then (tokenize line).dropLast
        else tokenize line) = without_trailing_ampersand (tokenize line) := by
      unfold without_trailing_ampersand
      by_cases hl : (tokenize line).getLast? = some ['&'] <;> simp [hl]
    rw [ht, parse_tokens_dangling _ _ _ h]
  refine ⟨hparse, fun os s => ?_⟩
  have hl : line.isEmpty = false := by
    cases line with
    | nil => exact absurd rfl hline
    | cons _ _ => rfl
  simp [shell_step, eval_line, hl, hparse, dispatch, Shell.emit]

/-- A line without a redirect operator that lacks its path is not reported. -/
theorem not_dangling_no_report (line : Str)
    (h : dangling (without_trailing_ampersand (tokenize line)) = false) :
    (parse_line_advanced line).2 = [] := by
  unfold parse_line_advanced
  by_cases he : (tokenize line).isEmpty = true
  · simp [he]
  · simp only [he, if_false]
    have ht : (if ((tokenize line).getLast? == some ['&']) = true then (tokenize line).dropLast
        else tokenize line) = without_trailing_ampersand (tokenize line) := by
      unfold without_trailing_ampersand
      by_cases hl : (tokenize line).getLast? = some ['&'] <;> simp [hl]
    rw [ht]
    obtain ⟨res, hres⟩ := parse_tokens_not_dangling _ [] Command.init h
    rw [hres]
    simp only []
    split_ifs <;> rfl

/-- The pruning keeps, in order, the jobs that are not DONE. -/
theorem remove_done_eq_filter (jobs : List Job) :
    remove_done jobs = jobs.filter (fun j => decide (j.status ≠ JobStatus.DONE)) := by
  induction jobs with
  | nil => rfl
  | cons j js ih =>
    by_cases h : j.status = JobStatus.DONE <;> simp [remove_done, h, ih]

/-- The lookup of an id no job has returns -1. -/
theorem job_index_from_absent (jobs : List Job) (id : Int) (i : Nat)
    (h : ∀ j ∈ jobs, j.id ≠ id) : job_index_from i jobs id = -1 := by
  induction jobs generalizing i with
  | nil => rfl
  | cons j js ih =>
    have hj : j.id ≠ id := h j (List.mem_cons_self _ _)
    simp only [job_index_from, hj, if_false]
    exact ih (i + 1) (fun x hx => h x (List.mem_cons_of_mem _ hx))

/-- Setting a status changes no id. -/
theorem set_status_ids (jobs : List Job) (i : Nat) (st : JobStatus) :
    (set_status jobs i st).map Job.id = jobs.map Job.id := by
  induction jobs generalizing i with
  | nil => rfl
  | cons j js ih =>
    cases i with
    | zero => simp [set_status]
    | succ n => simp [set_status, ih]

/-- The handler changes no id. -/
theorem update_job_ids (jobs : List Job) (pgid : Int) (st : WaitStatus) :
    (update_job jobs pgid st).map Job.id = jobs.map Job.id := by
  induction jobs with
  | nil => rfl
  | cons j js ih =>
    by_cases h : j.pgid = pgid <;> simp [update_job, h, ih]

/-- The loop of the handler changes no id. -/
theorem sigchld_loop_ids (pending : List (Int × WaitStatus)) (procs : List (Int × Int))
    (jobs : List Job) :
    (sigchld_loop procs pending jobs).1.map Job.id = jobs.map Job.id := by
  induction pending generalizing procs jobs with
  | nil => rfl
  | cons n rest ih =>
    simp only [sigchld_loop]
    split
    · exact ih _ _
    · rw [ih, update_job_ids]

/-- Sending SIGCONT changes neither the table nor the counter. -/
theorem send_cont_jobs (os : OS) (s : Shell) (pgid : Int) :
    (send_cont os s pgid).jobs = s.jobs ∧
      (send_cont os s pgid).next_job_id = s.next_job_id := by
  unfold send_cont
  by_cases h : os.kill s.tick <;> simp [h, Shell.emit, Shell.next]

/-- The function `bring_job_foreground` changes no id and not the counter. -/
theorem bring_job_foreground_ids (os : OS) (s : Shell) (id : Int) (cont : Bool) :
    (bring_job_foreground os s id cont).jobs.map Job.id = s.jobs.map Job.id ∧
      (bring_job_foreground os s id cont).next_job_id = s.next_job_id := by
  unfold bring_job_foreground
  by_cases h : job_index_by_id s.jobs id < 0
  · simp [h, Shell.emit]
  · simp only [h, if_false]
    cases hg : s.jobs.get? (job_index_by_id s.jobs id).toNat with
    | none => simp
    | some job =>
      cases cont <;>
        simp [wait_for, Shell.emit, Shell.next, set_status_ids, send_cont_jobs]

/-- The function `continue_job_background` changes no id and not the counter. -/
theorem continue_job_background_ids (os : OS) (s : Shell) (id : Int) (cont : Bool) :
    (continue_job_background os s id cont).jobs.map Job.id = s.jobs.map Job.id ∧
      (continue_job_background os s id cont).next_job_id = s.next_job_id := by
  unfold continue_job_background
  by_cases h : job_index_by_id s.jobs id < 0
  · simp [h, Shell.emit]
  · simp only [h, if_false]
    cases hg : s.jobs.get? (job_index_by_id s.jobs id).toNat with
    | none => simp
    | some job =>
      cases cont <;> simp [set_status_ids, send_cont_jobs]

/-- An `int` in range is the value of the operation. -/
theorem wrap_int_of_range (x : Int) (h1 : -2147483648 ≤ x) (h2 : x ≤ 2147483647) :
    wrap_int x = x := by
  unfold wrap_int
  omega

/-- What a run does to the ids of the table and to the counter, as long as
the counter stays in range. -/
theorem run_invariant (s t : Shell) (m : Nat) (h : Run s m t) :
    1 ≤ s.next_job_id → s.next_job_id + m ≤ 2147483647 →
    (s.jobs.map Job.id).Pairwise (fun a b => a < b) →
    (∀ i ∈ s.jobs.map Job.id, i < s.next_job_id) →
    t.next_job_id = s.next_job_id + m ∧
    (t.jobs.map Job.id).Pairwise (fun a b => a < b) ∧
    (∀ i ∈ t.jobs.map Job.id, i < t.next_job_id) ∧
    (∀ i ∈ t.jobs.map Job.id, i < s.next_job_id → i ∈ s.jobs.map Job.id) := by
  induction h with
  | refl =>
    intro _ _ hp hb
    exact ⟨by simp, hp, hb, fun i hi _ => hi⟩
  | add t n pgid cmdline status _ ih =>
    intro h1 hm hp hb
    obtain ⟨hn, hpt, hbt, hold⟩ := ih h1 (by push_cast at hm ⊢; omega) hp hb
    have hw : wrap_int (t.next_job_id + 1) = t.next_job_id + 1 := by
      apply wrap_int_of_range <;> (push_cast at hm; omega)
    have hids : (add_job t pgid cmdline status).jobs.map Job.id
        = t.jobs.map Job.id ++ [t.next_job_id] := by
      simp [add_job]
    have hnext : (add_job t pgid cmdline status).next_job_id = t.next_job_id + 1 := by
      simp only [add_job, hw]
    rw [hids, hnext]
    refine ⟨by push_cast; omega, ?_, ?_, ?_⟩
    · rw [List.pairwise_append]
      refine ⟨hpt, List.pairwise_singleton _ _, ?_⟩
      intro a ha b hb'
      rw [List.mem_singleton] at hb'
      rw [hb']
      exact hbt a ha
    · intro i hi
      rw [List.mem_append, List.mem_singleton] at hi
      rcases hi with hi | hi
      · have := hbt i hi
        omega
      · omega
    · intro i hi hlt
      rw [List.mem_append, List.mem_singleton] at hi
      rcases hi with hi | hi
      · exact hold i hi hlt
      · omega
  | prune t n _ ih =>
    intro h1 hm hp hb
    obtain ⟨hn, hpt, hbt, hold⟩ := ih h1 hm hp hb
    have hsub : ((cleanup_commands t).jobs.map Job.id).Sublist (t.jobs.map Job.id) := by
      simp only [cleanup_commands, remove_done_eq_filter]
      exact (List.filter_sublist _).map _
    exact ⟨hn, hpt.sublist hsub, fun i hi => hbt i (hsub.subset hi),
      fun i hi hlt => hold i (hsub.subset hi) hlt⟩
  | sigchld t n k _ ih =>
    intro h1 hm hp hb
    obtain ⟨hn, hpt, hbt, hold⟩ := ih h1 hm hp hb
    simp only [sigchld_handler, sigchld_loop_ids]
    exact ⟨hn, hpt, hbt, hold⟩
  | fg t n os id cont _ ih =>
    intro h1 hm hp hb
    obtain ⟨hn, hpt, hbt, hold⟩ := ih h1 hm hp hb
    obtain ⟨e1, e2⟩ := bring_job_foreground_ids os t id cont
    rw [e1, e2]
    exact ⟨hn, hpt, hbt, hold⟩
  | bg t n os id cont _ ih =>
    intro h1 hm hp hb
    obtain ⟨e1, e2⟩ := continue_job_background_ids os t id cont
    obtain ⟨hn, hpt, hbt, hold⟩ := ih h1 hm hp hb
    rw [e1, e2]
    exact ⟨hn, hpt, hbt, hold⟩

/-- The shell after `n` calls of `add_job` is reached by a run with `n` calls. -/
theorem run_after_adds (n : Nat) : Run Shell.start n (after_adds n) := by
  induction n with
  | zero => exact Run.refl
  | succ n ih => exact Run.add _ _ _ _ _ ih

/-- The counter after `n` calls of `add_job`. -/
theorem after_adds_next (n : Nat) : (after_adds n).next_job_id = wrap_int (1 + n) := by
  induction n with
  | zero => rfl
  | succ n ih =>
    simp only [after_adds, add_job, ih]
    unfold wrap_int
    push_cast
    omega

/-- The job the last of `n + 1` calls of `add_job` registers. -/
theorem after_adds_last (n : Nat) :
    ∃ j ∈ (after_adds (n + 1)).jobs, j.id = (after_adds n).next_job_id :=
  ⟨{ id := (after_adds n).next_job_id, pgid := 100, cmdline := [],
      status := JobStatus.RUNNING }, by simp [after_adds, add_job], rfl⟩

/-! ### The SIGCHLD handler -/

/-- Once a child is reaped `getpgid` of its pid fails. -/
theorem getpgid_reaped (procs : List (Int × Int)) (pid : Int) :
    getpgid (procs.filter (fun p => p.1 ≠ pid)) pid = -1 := by
  induction procs with
  | nil => rfl
  | cons p rest ih =>
    by_cases h : p.1 = pid
    · simpa [List.filter_cons, h] using ih
    · simpa [List.filter_cons, h, getpgid] using ih

/-- A batch of exits and kills leaves every job as it was. -/
theorem sigchld_loop_exits (pending : List (Int × WaitStatus)) :
    ∀ (procs : List (Int × Int)) (jobs : List Job),
    (∀ n ∈ pending, n.2 = WaitStatus.exited ∨ n.2 = WaitStatus.signaled) →
    (sigchld_loop procs pending jobs).1 = jobs := by
  induction pending with
  | nil => intro procs jobs _; rfl
  | cons n rest ih =>
    intro procs jobs h
    have hn := h n (List.mem_cons_self _ _)
    have hreap : reap procs n.1 n.2 = procs.filter (fun p => p.1 ≠ n.1) := by
      rcases hn with hn | hn <;> simp [reap, hn, WIFEXITED, WIFSIGNALED]
    simp only [sigchld_loop, hreap, getpgid_reaped]
    exact ih _ _ (fun m hm => h m (List.mem_cons_of_mem _ hm))

/-- Stops and resumes, whose children are still processes, are recorded. -/
theorem stop_and_resume_are_recorded :
    (sigchld_handler stops_and_resume two_jobs).1 =
      [{ id := 1, pgid := 100, cmdline := "sleep 1".toList, status := JobStatus.STOPPED },
       { id := 2, pgid := 200, cmdline := "sleep 2".toList, status := JobStatus.RUNNING }] := by
  decide

/-! ### The read-eval loop -/

/-- After the pruning no job is DONE. -/
theorem remove_done_no_done (jobs : List Job) :
    ∀ j ∈ remove_done jobs, j.status ≠ JobStatus.DONE := by
  intro j hj
  rw [remove_done_eq_filter, List.mem_filter] at hj
  simpa using hj.2

/-- A table without DONE job is left as it is by the pruning. -/
theorem remove_done_of_no_done (jobs : List Job)
    (h : ∀ j ∈ jobs, j.status ≠ JobStatus.DONE) : remove_done jobs = jobs := by
  rw [remove_done_eq_filter, List.filter_eq_self]
  intro j hj
  simpa using h j hj

/-- The handler gives no job the status DONE that did not have it: the group
of a child that exited is not found, and a stop or a resume gives STOPPED or
RUNNING. -/
theorem sigchld_loop_no_done (pending : List (Int × WaitStatus)) :
    ∀ (procs : List (Int × Int)) (jobs : List Job),
    (∀ j ∈ jobs, j.status ≠ JobStatus.DONE) →
    ∀ j ∈ (sigchld_loop procs pending jobs).1, j.status ≠ JobStatus.DONE := by
  induction pending with
  | nil => intro procs jobs h; exact h
  | cons n rest ih =>
    intro procs jobs h
    simp only [sigchld_loop]
    split
    · exact ih _ _ h
    · rename_i hpg
      apply ih
      have hst : n.2 = WaitStatus.stopped ∨ n.2 = WaitStatus.continued := by
        cases hn : n.2 with
        | stopped => exact Or.inl rfl
        | continued => exact Or.inr rfl
        | exited =>
          exfalso
          apply hpg
          have e : reap procs n.1 n.2 = procs.filter (fun p => p.1 ≠ n.1) := by
            simp [reap, hn, WIFEXITED]
          rw [e, getpgid_reaped]
          decide
        | signaled =>
          exfalso
          apply hpg
          have e : reap procs n.1 n.2 = procs.filter (fun p => p.1 ≠ n.1) := by
            simp [reap, hn, WIFEXITED, WIFSIGNALED]
          rw [e, getpgid_reaped]
          decide
      generalize getpgid (reap procs n.1 n.2) n.1 = g
      clear hpg ih
      induction jobs with
      | nil => intro j hj; simp [update_job] at hj
      | cons a js ihj =>
        intro j hj
        simp only [update_job] at hj
        split at hj
        · rcases List.mem_cons.mp hj with hj | hj
          · subst hj
            rcases hst with hst | hst <;>
              simp [reported_status, hst, WIFSTOPPED, WIFCONTINUED]
          · exact h j (List.mem_cons_of_mem _ hj)
        · rcases List.mem_cons.mp hj with hj | hj
          · subst hj
            exact h _ (List.mem_cons_self _ _)
          · exact ihj (fun x hx => h x (List.mem_cons_of_mem _ hx)) j hj

/-- When a turn of the loop reads its line no job of the table is DONE. -/
theorem loop_head_no_done (s : Shell) (h : LoopHead s) :
    ∀ j ∈ s.jobs, j.status ≠ JobStatus.DONE := by
  induction h with
  | first os =>
    intro j hj
    cases hi : os.isatty <;> simp [init_shell, hi, Shell.emit, Shell.start] at hj
  | turn os s line _ ih =>
    intro j hj
    simp only [Shell.emit, shell_step] at hj
    split at hj
    · exact ih j hj
    · exact remove_done_no_done _ j hj
  | sigchld s k _ ih =>
    exact sigchld_loop_no_done k.pending k.procs s.jobs ih

/-- The loop, after the lines `read`, reads the next line in the state `head_after`. -/
theorem shell_iterations_append (os : OS) (read : List Str) :
    ∀ (s : Shell) (line : Str) (rest : List Str),
    shell_iterations os s (read ++ line :: rest) =
      shell_iterations os (shell_step os (head_after os s read) line) rest := by
  induction read with
  | nil => intro s line rest; rfl
  | cons l ls ih =>
    intro s line rest
    simp only [List.cons_append, shell_iterations, head_after]
    exact ih _ _ _

/-- The states `head_after` of a run of `shell_loop` are states in which a
turn reads its line. -/
theorem loop_head_of_run (os : OS) (read : List Str) :
    LoopHead (head_after os (init_shell os Shell.start) read) := by
  have key : ∀ (ls : List Str) (s : Shell), LoopHead (s.emit Event.prompt) →
      LoopHead (head_after os s ls) := by
    intro ls
    induction ls with
    | nil => intro s h; exact h
    | cons l ls ih =>
      intro s h
      simp only [head_after]
      exact ih _ (LoopHead.turn os _ l h)
  exact key read _ (LoopHead.first os)

/-! ### Launching a pipeline -/

/-- C1. The line `exit` does not end the loop. `handle_builtin` returns 0 for
`exit`; `shell_loop` compares that value with -1 only, so the turn that reads
`exit` is a turn that prunes the table and nothing else, and the lines after
it are read and run as before. On the input `exit`, `sleep 5 &` the second line
is run: `fork` is called and the job of `sleep 5` is in the table when `main`
returns. -/
theorem exit_line_is_not_the_end :
    (∀ (os : OS) (s : Shell),
      (parse_line_advanced "exit".toList).1.map (fun c => (handle_builtin os s c).1) = [0]) ∧
    (∀ (os : OS) (s : Shell) (rest : List Str),
      shell_iterations os s ("exit".toList :: rest) =
        shell_iterations os (cleanup_commands (s.emit Event.prompt)) rest) ∧
    (main calm ["exit".toList, "sleep 5 &".toList]).2.jobs =
      [{ id := 1, pgid := 100, cmdline := "sleep 5".toList, status := JobStatus.RUNNING }] ∧
    Event.fork (some 100) ∈ (main calm ["exit".toList, "sleep 5 &".toList]).2.trace := by
  refine ⟨?_, ?_, by decide, by decide⟩
  · intro os s
    rw [parse_exit]
    simp [handle_builtin, Command.init]
  · intro os s rest
    have h : shell_step os (s.emit Event.prompt) "exit".toList
        = cleanup_commands (s.emit Event.prompt) := by
      simp only [shell_step, eval_line, parse_exit]
      simp [dispatch, handle_builtin, Command.init]
    simp only [shell_iterations, h]

/-- C2. One run of `sigchld_handler` drains the batch, but an exit or a kill
marks no job DONE. The handler asks `getpgid(pid)` after `waitpid` has
reported the exit; that wait has released the child, `getpgid` fails, and the
guard `pgid <= 0` skips the notification: after a batch of exits and kills
every job is as it was before. -/
theorem exits_are_not_recorded (k : Kernel) (jobs : List Job)
    (h : ∀ n ∈ k.pending, n.2 = WaitStatus.exited ∨ n.2 = WaitStatus.signaled) :
    (sigchld_handler k jobs).1 = jobs ∧ (sigchld_handler k jobs).2.pending = [] :=
  ⟨sigchld_loop_exits k.pending k.procs jobs h, rfl⟩

/-- C2 at the failing input: the exits of two tracked background jobs are
pending, and after the handler both jobs are still RUNNING. -/
theorem exits_are_not_recorded_at_two_jobs :
    (∀ n ∈ two_exits.pending, n.2 = WaitStatus.exited ∨ n.2 = WaitStatus.signaled) ∧
    (sigchld_handler two_exits two_jobs).1 = two_jobs ∧
    (sigchld_handler two_exits two_jobs).2.pending = [] ∧
    (∀ j ∈ (sigchld_handler two_exits two_jobs).1, j.status = JobStatus.RUNNING) :=
  ⟨by decide, (exits_are_not_recorded two_exits two_jobs (by decide)).1,
    (exits_are_not_recorded two_exits two_jobs (by decide)).2, by decide⟩

/-- C3, as amended. From the empty table with `next_job_id = 1`, after any
sequence of `add_job`, the pruning of `cleanup_commands`, `sigchld_handler`,
`bring_job_foreground` and `continue_job_background` with at most 2^31 - 2
calls of `add_job`: the counter is 1 plus the number of those calls, the ids
of the table are strictly increasing in table order, pairwise distinct, and
smaller than `next_job_id`; and in every state `t` reached later within the
same bound the counter is not smaller, and a job of `t` whose id is below the
counter of `s` has the id of a job that was in the table of `s`: an id that
left the table is not given again. -/
theorem job_ids_increase_until_the_counter_wraps (s0 s : Shell) (n : Nat)
    (h0 : s0.jobs = []) (h1 : s0.next_job_id = 1) (hrun : Run s0 n s)
    (hn : n ≤ 2147483646) :
    s.next_job_id = 1 + n ∧
    (s.jobs.map Job.id).Pairwise (fun a b => a < b) ∧
    (s.jobs.map Job.id).Nodup ∧
    (∀ j ∈ s.jobs, j.id < s.next_job_id) ∧
    ∀ (t : Shell) (m : Nat), Run s m t → n + m ≤ 2147483646 →
      s.next_job_id ≤ t.next_job_id ∧
      ∀ j ∈ t.jobs, j.id < s.next_job_id → ∃ j0 ∈ s.jobs, j0.id = j.id := by
  obtain ⟨e, hp, hb, _⟩ := run_invariant s0 s n hrun (by omega) (by rw [h1]; omega)
    (by simp [h0]) (by simp [h0])
  rw [h1] at e
  refine ⟨e, hp, hp.imp (fun hab => ne_of_lt hab), ?_, ?_⟩
  · intro j hj
    exact hb j.id (List.mem_map_of_mem _ hj)
  · intro t m ht hm
    obtain ⟨e', _, _, hold⟩ := run_invariant s t m ht (by omega)
      (by rw [e]; omega) hp hb
    refine ⟨by omega, fun j hj hlt => ?_⟩
    have := hold j.id (List.mem_map_of_mem _ hj) hlt
    rw [List.mem_map] at this
    obtain ⟨j0, hj0, he⟩ := this
    exact ⟨j0, hj0, he⟩

/-- C3 as amended, at the state after one `add_job`. -/
theorem job_ids_increase_until_the_counter_wraps_witness :
    Shell.start.jobs = [] ∧ Shell.start.next_job_id = 1 ∧
    Run Shell.start 1 (after_adds 1) ∧ 1 ≤ 2147483646 ∧
    ((after_adds 1).next_job_id = 1 + (1 : Nat) ∧
    ((after_adds 1).jobs.map Job.id).Pairwise (fun a b => a < b) ∧
    ((after_adds 1).jobs.map Job.id).Nodup ∧
    (∀ j ∈ (after_adds 1).jobs, j.id < (after_adds 1).next_job_id) ∧
    ∀ (t : Shell) (m : Nat), Run (after_adds 1) m t → 1 + m ≤ 2147483646 →
      (after_adds 1).next_job_id ≤ t.next_job_id ∧
      ∀ j ∈ t.jobs, j.id < (after_adds 1).next_job_id →
        ∃ j0 ∈ (after_adds 1).jobs, j0.id = j.id) :=
  ⟨rfl, rfl, run_after_adds 1, by decide,
    job_ids_increase_until_the_counter_wraps Shell.start (after_adds 1) 1 rfl rfl
      (run_after_adds 1) (by decide)⟩

/-- C3 as stated fails: the 2^31 - 1 calls of `add_job` that give the ids 1 to
2^31 - 1 leave the counter at -2^31, below the id of the last job. -/
theorem counter_wraps_below_the_ids :
    Run Shell.start 2147483647 (after_adds 2147483647) ∧
    (after_adds 2147483647).next_job_id = -2147483648 ∧
    (∃ j ∈ (after_adds 2147483647).jobs, j.id = 2147483647) ∧
    (after_adds 2147483646).next_job_id = 2147483647 ∧
    Run (after_adds 2147483646) 1 (after_adds 2147483647) := by
  have h1 : (after_adds 2147483647).next_job_id = -2147483648 := by
    rw [after_adds_next]
    decide
  have h2 : (after_adds 2147483646).next_job_id = 2147483647 := by
    rw [after_adds_next]
    decide
  have h3 := after_adds_last 2147483646
  rw [h2] at h3
  exact ⟨run_after_adds 2147483647, h1, h3, h2, Run.add _ _ _ _ _ Run.refl⟩

/-- C4. When no job of the table has the id, `bring_job_foreground` and
`continue_job_background` write the "no such job" report to stderr and do
nothing else: the shell is as before but for that one event, so the table
(length, ids, pgids, command lines, statuses) and `next_job_id` are unchanged,
no signal is sent and `tcsetpgrp` is not called. -/
theorem unknown_job_is_reported (os : OS) (s : Shell) (id : Int) (cont : Bool)
    (h : ∀ j ∈ s.jobs, j.id ≠ id) :
    bring_job_foreground os s id cont =
      { s with trace := s.trace ++ [Event.stderr (Msg.no_such_job "fg".toList id)] } ∧
    continue_job_background os s id cont =
      { s with trace := s.trace ++ [Event.stderr (Msg.no_such_job "bg".toList id)] } := by
  have hidx : job_index_by_id s.jobs id = -1 := job_index_from_absent s.jobs id 0 h
  constructor
  · simp [bring_job_foreground, hidx, Shell.emit]
  · simp [continue_job_background, hidx, Shell.emit]

/-- C4 at the table `two_jobs` and the id 7. -/
theorem unknown_job_is_reported_witness :
    (∀ j ∈ with_two_jobs.jobs, j.id ≠ 7) ∧
    bring_job_foreground calm with_two_jobs 7 true =
      { with_two_jobs with
        trace := with_two_jobs.trace ++ [Event.stderr (Msg.no_such_job "fg".toList 7)] } ∧
    continue_job_background calm with_two_jobs 7 true =
      { with_two_jobs with
        trace := with_two_jobs.trace ++ [Event.stderr (Msg.no_such_job "bg".toList 7)] } :=
  ⟨by decide, unknown_job_is_reported calm with_two_jobs 7 true (by decide)⟩

/-- C5. In every turn of the loop that reads a line, the shell at the end of
the turn is the shell the turn would leave without `cleanup_commands`, with
the DONE jobs removed from the table and the other jobs kept in order, every
field as it was. (On an empty line the turn is left by `continue` before
`cleanup_commands`; the table holds no DONE job then, so it is the pruned
table all the same.) -/
theorem prune_once_each_turn (s : Shell) (h : LoopHead s) (os : OS) (line : Str) :
    shell_step os s line =
      { turn_body os s line with
        jobs := (turn_body os s line).jobs.filter
          (fun j => decide (j.status ≠ JobStatus.DONE)) } ∧
    (∀ j ∈ (shell_step os s line).jobs, j.status ≠ JobStatus.DONE) := by
  have hs := loop_head_no_done s h
  cases line with
  | nil =>
    have e : s.jobs.filter (fun j => decide (j.status ≠ JobStatus.DONE)) = s.jobs := by
      rw [← remove_done_eq_filter]
      exact remove_done_of_no_done _ hs
    refine ⟨?_, hs⟩
    show s = { s with jobs := s.jobs.filter (fun j => decide (j.status ≠ JobStatus.DONE)) }
    rw [e]
  | cons c cs =>
    refine ⟨?_, ?_⟩
    · show cleanup_commands (eval_line os s (c :: cs)) = _
      simp only [cleanup_commands, remove_done_eq_filter]
      rfl
    · intro j hj
      exact remove_done_no_done _ j hj

/-- C5 at the second turn of a run that reads `sleep 5 &`, then an empty line. -/
theorem prune_once_each_turn_witness :
    LoopHead (head_after calm (init_shell calm Shell.start) ["sleep 5 &".toList]) ∧
    shell_loop calm Shell.start ["sleep 5 &".toList, []] =
      shell_iterations calm
        (shell_step calm (head_after calm (init_shell calm Shell.start) ["sleep 5 &".toList])
          []) [] ∧
    (shell_step calm (head_after calm (init_shell calm Shell.start) ["sleep 5 &".toList]) [] =
      { turn_body calm (head_after calm (init_shell calm Shell.start) ["sleep 5 &".toList])
          [] with
        jobs := (turn_body calm
          (head_after calm (init_shell calm Shell.start) ["sleep 5 &".toList]) []).jobs.filter
            (fun j => decide (j.status ≠ JobStatus.DONE)) } ∧
      (∀ j ∈ (shell_step calm
          (head_after calm (init_shell calm Shell.start) ["sleep 5 &".toList]) []).jobs,
        j.status ≠ JobStatus.DONE)) :=
  ⟨loop_head_of_run calm ["sleep 5 &".toList],
    shell_iterations_append calm ["sleep 5 &".toList] (init_shell calm Shell.start) [] [],
    prune_once_each_turn _ (loop_head_of_run calm ["sleep 5 &".toList]) calm []⟩

/-- C7, as amended. For a line none of whose tokens is `|`, `<` or `>` and
whose last token is not `&`: either the line has no token and no command is
returned, or exactly one command is returned, with no redirect path and not in
the background, whose arguments are the tokens of the line, each one with a
pair of quotes around it removed once more and cut at its first NUL. -/
theorem plain_line_is_one_command (line : Str)
    (hop : ∀ t ∈ tokenize line, t ≠ ['|'] ∧ t ≠ ['>'] ∧ t ≠ ['<'])
    (hbg : (tokenize line).getLast? ≠ some ['&']) :
    (tokenize line = [] ∧ parse_line_advanced line = ([], [])) ∨
    ∃ cmd : Command, parse_line_advanced line = ([cmd], []) ∧
      cmd.args = (tokenize line).map (fun t => some (c_str (stripQuotes t))) ++ [none] ∧
      cmd.inputFile = [] ∧ cmd.outputFile = [] ∧ cmd.hasRedirect = false ∧
      cmd.background = false := by
  cases ht : tokenize line with
  | nil => left; simp [parse_line_advanced, ht]
  | cons t ts =>
    right
    rw [ht] at hop hbg
    have hp := parse_tokens_plain (t :: ts) [] Command.init hop
    obtain ⟨h1, h2, h3, h4, h5⟩ := foldl_push_arg (t :: ts) Command.init
    have hbg' : ((t :: ts).getLast? == some ['&']) = false := by
      simpa using hbg
    generalize List.foldl push_arg Command.init (t :: ts) = f at hp h1 h2 h3 h4 h5
    have hargs : f.args ≠ [] := by
      rw [h1]; simp [Command.init]
    refine ⟨{ f with args := f.args ++ [none] }, ?_, ?_, ?_⟩
    · unfold parse_line_advanced
      simp only [ht, hbg']
      simp [hp, hargs]
    · show f.args ++ [none] = _
      rw [h1]
      simp [Command.init, arg_of]
    · exact ⟨h2, h3, h4, h5⟩

/-- C7 as amended, at the line `echo hi`. -/
theorem plain_line_is_one_command_witness :
    (∀ t ∈ tokenize "echo hi".toList, t ≠ ['|'] ∧ t ≠ ['>'] ∧ t ≠ ['<']) ∧
    (tokenize "echo hi".toList).getLast? ≠ some ['&'] ∧
    ((tokenize "echo hi".toList = [] ∧ parse_line_advanced "echo hi".toList = ([], [])) ∨
      ∃ cmd : Command, parse_line_advanced "echo hi".toList = ([cmd], []) ∧
        cmd.args = (tokenize "echo hi".toList).map (fun t => some (c_str (stripQuotes t)))
          ++ [none] ∧
        cmd.inputFile = [] ∧ cmd.outputFile = [] ∧ cmd.hasRedirect = false ∧
        cmd.background = false) :=
  ⟨by decide, by decide, plain_line_is_one_command "echo hi".toList (by decide) (by decide)⟩

/-- C7 as stated fails on two lines without any operator character: the line
of one space gives no command; the line `"'a'"` has the one token `'a'` and
gives the argument `a`. -/
theorem operator_free_lines_that_differ :
    (∀ c ∈ [' '], c ∉ ['|', '<', '>', '&']) ∧ ¬ one_command_of_tokens [' '] ∧
    (∀ c ∈ [DQ, SQ, 'a', SQ, DQ], c ∉ ['|', '<', '>', '&']) ∧
    tokenize [DQ, SQ, 'a', SQ, DQ] = [[SQ, 'a', SQ]] ∧
    (parse_line_advanced [DQ, SQ, 'a', SQ, DQ]).1.map Command.args = [[some ['a'], none]] ∧
    ¬ one_command_of_tokens [DQ, SQ, 'a', SQ, DQ] := by
  have h1 : (parse_line_advanced [' ']).1 = [] := by decide
  have h2 : (parse_line_advanced [DQ, SQ, 'a', SQ, DQ]).1.map Command.args
      = [[some ['a'], none]] := by decide
  have h3 : tokenize [DQ, SQ, 'a', SQ, DQ] = [[SQ, 'a', SQ]] := by decide
  refine ⟨by decide, ?_, by decide, h3, h2, ?_⟩
  · rintro ⟨cmd, hc, _⟩
    rw [h1] at hc
    cases hc
  · rintro ⟨cmd, hc, ha, _⟩
    rw [hc] at h2
    simp only [List.map_cons, List.map_nil, List.cons.injEq, and_true] at h2
    rw [h2, h3] at ha
    revert ha
    decide

/-- C10, as amended. Once a trailing `&` is taken off, let the tokens of the
line end with a run of tokens `<` and `>`, the token before the run being none
of these. Each `<` or `>` read as an operator takes the token after it as its
path, whatever it is. When the run is of odd length its last token is an
operator with no token after it: `parse_line_advanced` reports the syntax
error and returns no command, whatever came before, and the turn of the loop
writes the report, launches nothing, registers no job, and ends with the
pruning. When the run is of even length no syntax error is reported. -/
theorem odd_run_of_redirects_discards_line (line : Str) (pre run : List Str)
    (h : without_trailing_ampersand (tokenize line) = pre ++ run)
    (hrun : ∀ t ∈ run, t = ['>'] ∨ t = ['<'])
    (hpre : ∀ x, pre.getLast? = some x → ¬ (x = ['>'] ∨ x = ['<'])) :
    (run.length % 2 = 1 →
      parse_line_advanced line = ([], [Msg.syntax_error]) ∧
      ∀ (os : OS) (s : Shell),
        shell_step os s line = cleanup_commands (s.emit (Event.stderr Msg.syntax_error))) ∧
    (run.length % 2 = 0 → (parse_line_advanced line).2 = []) := by
  have hd := dangling_append_run pre run hrun hpre
  rw [← h] at hd
  constructor
  · intro hodd
    exact dangling_discards_line line (by rw [hd]; simpa using hodd)
  · intro heven
    exact not_dangling_no_report line (by rw [hd]; simp; omega)

/-- C10 as amended, at the lines `ls | sort > &` and `ls > >`. -/
theorem odd_run_of_redirects_discards_line_witness :
    without_trailing_ampersand (tokenize "ls | sort > &".toList) =
      ["ls".toList, ['|'], "sort".toList] ++ [['>']] ∧
    (∀ t ∈ [['>']], t = ['>'] ∨ t = ['<']) ∧
    (∀ x, ["ls".toList, ['|'], "sort".toList].getLast? = some x → ¬ (x = ['>'] ∨ x = ['<'])) ∧
    ([['>']].length % 2 = 1) ∧
    parse_line_advanced "ls | sort > &".toList = ([], [Msg.syntax_error]) ∧
    (∀ (os : OS) (s : Shell),
      shell_step os s "ls | sort > &".toList =
        cleanup_commands (s.emit (Event.stderr Msg.syntax_error))) ∧
    (parse_line_advanced "ls > >".toList).2 = [] :=
  have hx : ∀ x, ["ls".toList, ['|'], "sort".toList].getLast? = some x →
      ¬ (x = ['>'] ∨ x = ['<']) := by
    intro x hx
    simp only [List.getLast?_cons_cons, List.getLast?_singleton, Option.some.injEq] at hx
    subst hx
    decide
  have hw := odd_run_of_redirects_discards_line "ls | sort > &".toList
    ["ls".toList, ['|'], "sort".toList] [['>']] (by decide) (by decide) hx
  have hv := odd_run_of_redirects_discards_line "ls > >".toList
    ["ls".toList] [['>'], ['>']] (by decide) (by decide)
    (by
      intro x hx
      simp only [List.getLast?_singleton, Option.some.injEq] at hx
      subst hx
      decide)
  ⟨by decide, by decide, hx, by decide, (hw.1 (by decide)).1, (hw.1 (by decide)).2,
    hv.2 (by decide)⟩

/-- C10 as stated fails: in `ls > >` the last token is a `>` with no token
after it, and it is the path of the `>` before it: no error is reported, the
command `ls` is returned with the output path `>`, and the turn of the loop
launches it. -/
theorem redirect_taken_as_path :
    (tokenize "ls > >".toList).getLast? = some ['>'] ∧
    parse_line_advanced "ls > >".toList =
      ([{ Command.init with
          args := [some "ls".toList, none]
          outputFile := ['>']
          hasRedirect := true
          raw := "ls".toList }], []) ∧
    Event.fork (some 100) ∈ (shell_step calm Shell.start "ls > >".toList).trace := by
  decide

end MyShell
